import Mathlib

/-!
# Byte histogram, two reduction strategies

A shallow embedding of `CS420Lab02Sunny.cpp`: the chunk partition computed in
`main`, the lock-per-increment scan into the global histogram
(`processChunkGlobal`), the private scan (`processChunkLocal`) followed by
`mergeHistograms`, and the output-name search `createOutputFileName`.

Machine integers: `int` counters are 32-bit two's complement (results are
reduced by `wrapInt32`; signed overflow is undefined in C++, the model takes
the wrapped value the hardware produces), `size_t` is 64 bits (`wrapSize`),
`unsigned int` is 32 bits (`wrapUInt`).  A buffer `char*` is a list of `char`
values; the cast `static_cast<unsigned char>` is `toUChar`.  Threads are
modelled twice: run one after the other in spawn order (`globalStrategy`,
`localStrategy`) and, for the shared histogram, under every interleaving of
the lock-protected increments (`runSchedule`).
-/

namespace Hist

/-! ## Machine arithmetic -/

/-- The constant `HISTOGRAM_SIZE` (line 11). -/
def HISTOGRAM_SIZE : Nat := 256

/-- Largest value of a 32-bit `int`. -/
def INT_MAX : Int := 2147483647

/-- The 32-bit `int` that holds the exact result `x` after two's-complement
wrap-around. -/
def wrapInt32 (x : Int) : Int := (x + 2147483648) % 4294967296 - 2147483648

/-- Reduction of an exact result to a 64-bit `size_t`. -/
def wrapSize (n : Nat) : Nat := n % 18446744073709551616

/-- Reduction of an exact result to a 32-bit `unsigned int`. -/
def wrapUInt (n : Nat) : Nat := n % 4294967296

/-- The cast `static_cast<unsigned char>(c)` of a `char` value. -/
def toUChar (c : Int) : Nat := (c % 256).toNat

/-! ## Histograms -/

/-- An `int[HISTOGRAM_SIZE]` array with every counter zero
(`= { 0 }`, `new int[HISTOGRAM_SIZE]()`, `std::fill(..., 0)`). -/
def zeroHistogram : List Int := List.replicate HISTOGRAM_SIZE 0

/-- The statement `histogram[byteValue]++` on an `int` array. -/
def incrCounter (histogram : List Int) (byteValue : Nat) : List Int :=
  histogram.set byteValue (wrapInt32 (histogram.getD byteValue 0 + 1))

/-- The function `processChunkGlobal` (lines 19-26): for `i` from `start` up
to `stop` (the parameter `end`), take the lock and increment the counter of
the byte at `i`.  The histogram is passed explicitly. -/
def processChunkGlobal (data : List Int) (start stop : Nat)
    (global_histogram : List Int) : List Int :=
  (List.range' start (stop - start)).foldl
    (fun h i => incrCounter h (toUChar (data.getD i 0))) global_histogram

/-- The function `processChunkLocal` (lines 29-36): the same scan into the
worker's own array. -/
def processChunkLocal (data : List Int) (start stop : Nat)
    (local_histogram : List Int) : List Int :=
  (List.range' start (stop - start)).foldl
    (fun h i => incrCounter h (toUChar (data.getD i 0))) local_histogram

/-- The function `mergeHistograms` (lines 39-46); `none` is the null pointer. -/
def mergeHistograms (global_histogram : List Int) :
    Option (List Int) → List Int
  | none => global_histogram
  | some local_histogram =>
    (List.range HISTOGRAM_SIZE).foldl
      (fun g i => g.set i (wrapInt32 (g.getD i 0 + local_histogram.getD i 0)))
      global_histogram

/-! ## The partition computed in `main` -/

/-- Line 75: `size_t chunk_size = fileSize / num_threads`. -/
def chunkSize (fileSize num_threads : Nat) : Nat := fileSize / num_threads

/-- Lines 88 and 122: `size_t start = i * chunk_size`. -/
def chunkStart (fileSize num_threads i : Nat) : Nat :=
  wrapSize (i * chunkSize fileSize num_threads)

/-- Lines 89 and 123:
`size_t end = (i == num_threads - 1) ? fileSize : start + chunk_size`. -/
def chunkEnd (fileSize num_threads i : Nat) : Nat :=
  if i = wrapUInt (num_threads + 4294967295) then fileSize
  else wrapSize (chunkStart fileSize num_threads i + chunkSize fileSize num_threads)

/-! ## The two strategies of `main` -/

/-- Lines 87-95 with the workers run to completion one after the other in
spawn order, from the global histogram `g`. -/
def globalStrategyFrom (data : List Int) (num_threads : Nat) (g : List Int) : List Int :=
  (List.range num_threads).foldl
    (fun h i => processChunkGlobal data (chunkStart data.length num_threads i)
      (chunkEnd data.length num_threads i) h) g

/-- The shared strategy from the statically zero-initialised global histogram. -/
def globalStrategy (data : List Int) (num_threads : Nat) : List Int :=
  globalStrategyFrom data num_threads zeroHistogram

/-- Lines 117-129: the vector `local_histograms` after every worker has been
joined. -/
def localHistograms (data : List Int) (num_threads : Nat) : List (Option (List Int)) :=
  (List.range num_threads).map fun i =>
    some (processChunkLocal data (chunkStart data.length num_threads i)
      (chunkEnd data.length num_threads i) zeroHistogram)

/-- Lines 133-136: the merge loop over the first `k` workers. -/
def mergeLoop (locals : List (Option (List Int))) (k : Nat) (g : List Int) : List Int :=
  (List.range k).foldl (fun h i => mergeHistograms h (locals.getD i none)) g

/-- Lines 110-136: reset of the global histogram, private scans, merge. -/
def localStrategy (data : List Int) (num_threads : Nat) : List Int :=
  mergeLoop (localHistograms data num_threads) num_threads zeroHistogram

/-- Number of positions `i` in `[lo, hi)` whose byte, read as unsigned, is `v`. -/
def countRange (data : List Int) (v lo hi : Nat) : Nat :=
  (List.range' lo (hi - lo)).countP (fun i => toUChar (data.getD i 0) == v)

/-- Number of positions of the whole buffer whose byte, read as unsigned, is `v`. -/
def byteCount (data : List Int) (v : Nat) : Nat :=
  (List.range data.length).countP (fun i => toUChar (data.getD i 0) == v)

/-- A well-formed `int[256]`: 256 entries, each a 32-bit value. -/
def IsHistogram (h : List Int) : Prop :=
  h.length = 256 ∧ ∀ v, wrapInt32 (h.getD v 0) = h.getD v 0

/-- The scan loop shared by `processChunkGlobal` and `processChunkLocal`, over
an explicit list of offsets. -/
def scanOffsets (data : List Int) (offsets : List Nat) (h : List Int) : List Int :=
  offsets.foldl (fun h i => incrCounter h (toUChar (data.getD i 0))) h

/-- The sum of the counters of a histogram. -/
def histogramTotal (h : List Int) : Int := h.sum

/-! ## The program -/

/-- How a run of the program ends. -/
inductive Outcome where
  /-- Exit code 1 after a diagnostic on standard error (`return 1`, `exit(1)`). -/
  | exitFailure (diagnostic : String)
  /-- The integer division of line 75 with a zero divisor. -/
  | divisionByZero
  /-- Normal completion, with the histogram printed after the shared run and
  the one printed after the merge. -/
  | completed (sharedHistogram mergedHistogram : List Int)
  deriving DecidableEq

/-- The function `main` (lines 61-191) up to reporting: `argc`, the result of
`fileToMemoryTransfer` (`none` when the file cannot be opened or read, which
exits inside that function) and the value of
`std::thread::hardware_concurrency()`. -/
def main (argc : Nat) (fileData : Option (List Int)) (num_threads : Nat) : Outcome :=
  if argc ≠ 2 then Outcome.exitFailure "Usage: <program> <filename>"
  else
    match fileData with
    | none => Outcome.exitFailure "Cannot open / Error reading the file."
    | some data =>
      -- line 75: `fileSize / num_threads`, evaluated with no test of `num_threads`
      if num_threads = 0 then Outcome.divisionByZero
      else Outcome.completed (globalStrategy data num_threads) (localStrategy data num_threads)

/-! ## Interleavings of the shared strategy

Every increment of `processChunkGlobal` runs under `hist_mutex`, so the
increments of all workers are totally ordered.  The loop variable and the byte
read are private to the worker; one step of a worker is one loop iteration. -/

/-- The shared state while the workers of lines 87-95 run: the global
histogram and the loop variable `i` of every worker. -/
structure SharedState where
  global_histogram : List Int
  next : List Nat

/-- State right after all workers are spawned: zero histogram, `i = start`. -/
def initShared (fileSize num_threads : Nat) : SharedState :=
  ⟨zeroHistogram, (List.range num_threads).map (chunkStart fileSize num_threads)⟩

/-- One iteration of the loop of worker `w` (`none` when `w` is no worker or
its loop has ended). -/
def stepWorker (data : List Int) (num_threads : Nat) (s : SharedState) (w : Nat) :
    Option SharedState :=
  if w < num_threads ∧ s.next.getD w 0 < chunkEnd data.length num_threads w then
    some ⟨incrCounter s.global_histogram (toUChar (data.getD (s.next.getD w 0) 0)),
      s.next.set w (s.next.getD w 0 + 1)⟩
  else none

/-- Runs the iterations in the order given by `schedule` (a list of worker
indices), `none` if the schedule asks a finished worker to step. -/
def runSchedule (data : List Int) (num_threads : Nat) :
    SharedState → List Nat → Option SharedState
  | s, [] => some s
  | s, w :: rest =>
    match stepWorker data num_threads s w with
    | none => none
    | some s' => runSchedule data num_threads s' rest

/-- Every worker has left its loop (all threads can be joined). -/
def allJoined (data : List Int) (num_threads : Nat) (s : SharedState) : Prop :=
  ∀ w, w < num_threads → chunkEnd data.length num_threads w ≤ s.next.getD w 0

/-- Bytes equal to `v` already counted by the workers in state `s`. -/
def processedCount (data : List Int) (num_threads : Nat) (s : SharedState) (v : Nat) : Nat :=
  ∑ w in Finset.range num_threads,
    countRange data v (chunkStart data.length num_threads w) (s.next.getD w 0)

/-- Loop iterations still to run in state `s`. -/
def remainingWork (data : List Int) (num_threads : Nat) (s : SharedState) : Nat :=
  ∑ w in Finset.range num_threads, (chunkEnd data.length num_threads w - s.next.getD w 0)

/-- Invariant of the interleaved run. -/
def SharedInv (data : List Int) (num_threads : Nat) (s : SharedState) : Prop :=
  IsHistogram s.global_histogram ∧ s.next.length = num_threads ∧
  (∀ w, w < num_threads → chunkStart data.length num_threads w ≤ s.next.getD w 0 ∧
    s.next.getD w 0 ≤ chunkEnd data.length num_threads w) ∧
  ∀ v, s.global_histogram.getD v 0 = wrapInt32 (processedCount data num_threads s v : Nat)

/-! ## The output file name

A `std::string` is a Lean `String` whose characters stand for bytes; the test
`std::ifstream(fileName)` is a predicate `fileExists` on names. -/

/-- Scan of `find_last_of`: `last` is the latest index at which `c` was seen. -/
def findLastOfAux (c : Char) : List Char → Nat → Option Nat → Option Nat
  | [], _, last => last
  | x :: xs, i, last => findLastOfAux c xs (i + 1) (if x = c then some i else last)

/-- The call `s.find_last_of(c)`; `none` is `std::string::npos`. -/
def find_last_of (s : String) (c : Char) : Option Nat := findLastOfAux c s.data 0 none

/-- The call `s.substr(0, pos)`; with `npos` the whole string is returned. -/
def substr (s : String) : Option Nat → String
  | none => s
  | some pos => String.mk (s.data.take pos)

/-- Lines 50-51: the local `baseName` of `createOutputFileName`. -/
def baseNameOf (inputFileName : String) : String :=
  let baseName := substr inputFileName (find_last_of inputFileName '.')
  if baseName.data.isEmpty then inputFileName else baseName

/-- Lines 54-57: the `while` loop, with the current `fileName` and the `int`
`counter`; `fuel` bounds the number of tests of the loop condition and `none`
means the bound was reached. -/
def outputLoop (fileExists : String → Bool) (baseName : String) :
    Nat → String → Int → Option String
  | 0, _, _ => none
  | fuel + 1, fileName, counter =>
    if fileExists fileName then
      outputLoop fileExists baseName fuel
        (baseName ++ "_output_" ++ toString counter ++ ".txt") (wrapInt32 (counter + 1))
    else some fileName

/-- The function `createOutputFileName` (lines 49-59). -/
def createOutputFileName (fileExists : String → Bool) (inputFileName : String) (fuel : Nat) :
    Option String :=
  outputLoop fileExists (baseNameOf inputFileName) fuel
    (baseNameOf inputFileName ++ "_output.txt") 1

/-- The sequence `B_output.txt, B_output_1.txt, B_output_2.txt, ...` of names. -/
def candidateName (baseName : String) (k : Nat) : String :=
  if k = 0 then baseName ++ "_output.txt"
  else baseName ++ "_output_" ++ toString k ++ ".txt"

/-- The directory in which exactly the first `n` names of the sequence exist. -/
def firstNamesExist (baseName : String) (n : Nat) (fileName : String) : Bool :=
  (List.range n).any (fun k => fileName == candidateName baseName k)

/-- The four-byte buffer `[0x41, 0x41, 0x42, 0x00]`. -/
def sampleBuffer : List Int := [0x41, 0x41, 0x42, 0x00]

/-! # Lemmas and theorems -/

/-! ## Machine arithmetic lemmas -/

theorem wrapInt32_of_range {x : Int} (h0 : -2147483648 ≤ x) (h1 : x ≤ 2147483647) :
    wrapInt32 x = x := by
  unfold wrapInt32; omega

theorem wrapInt32_range (x : Int) :
    -2147483648 ≤ wrapInt32 x ∧ wrapInt32 x ≤ 2147483647 := by
  unfold wrapInt32; omega

theorem wrapInt32_idem (x : Int) : wrapInt32 (wrapInt32 x) = wrapInt32 x := by
  unfold wrapInt32; omega

theorem wrapInt32_add_left (x y : Int) : wrapInt32 (wrapInt32 x + y) = wrapInt32 (x + y) := by
  unfold wrapInt32; omega

theorem wrapInt32_add_right (x y : Int) : wrapInt32 (x + wrapInt32 y) = wrapInt32 (x + y) := by
  unfold wrapInt32; omega

theorem toUChar_lt (c : Int) : toUChar c < 256 := by
  unfold toUChar; omega

/-! ## Counter arrays -/

theorem isHistogram_zero : IsHistogram zeroHistogram := by
  refine ⟨by simp only [zeroHistogram, HISTOGRAM_SIZE, List.length_replicate], fun v => ?_⟩
  have : zeroHistogram.getD v 0 = 0 := by
    simp only [zeroHistogram, List.getD_eq_getElem?_getD, List.getElem?_replicate]
    split <;> rfl
  rw [this]; rfl

theorem zeroHistogram_getD (v : Nat) : zeroHistogram.getD v 0 = 0 := by
  simp only [zeroHistogram, List.getD_eq_getElem?_getD, List.getElem?_replicate]
  split <;> rfl

theorem getD_set_int (h : List Int) (b v : Nat) (x : Int) :
    (h.set b x).getD v 0 = if v = b ∧ b < h.length then x else h.getD v 0 := by
  simp only [List.getD_eq_getElem?_getD, List.getElem?_set]
  by_cases hvb : b = v
  · subst hvb
    by_cases hl : b < h.length
    · simp [hl]
    · have hn : h[b]? = none := List.getElem?_eq_none (Nat.le_of_not_lt hl)
      simp [hl, hn]
  · have : ¬ v = b := fun e => hvb e.symm
    simp [hvb, this]

theorem incrCounter_length (h : List Int) (b : Nat) : (incrCounter h b).length = h.length := by
  simp [incrCounter]

theorem incrCounter_getD (h : List Int) (b v : Nat) :
    (incrCounter h b).getD v 0
      = if v = b ∧ b < h.length then wrapInt32 (h.getD v 0 + 1) else h.getD v 0 := by
  unfold incrCounter
  rw [getD_set_int]
  by_cases hc : v = b ∧ b < h.length
  · rw [if_pos hc, if_pos hc, hc.1]
  · rw [if_neg hc, if_neg hc]

theorem isHistogram_incrCounter {h : List Int} (hh : IsHistogram h) (b : Nat) :
    IsHistogram (incrCounter h b) := by
  refine ⟨by rw [incrCounter_length]; exact hh.1, fun v => ?_⟩
  rw [incrCounter_getD]
  split
  · exact wrapInt32_idem _
  · exact hh.2 v

theorem isHistogram_scanOffsets (data : List Int) (offsets : List Nat) :
    ∀ h, IsHistogram h → IsHistogram (scanOffsets data offsets h) := by
  induction offsets with
  | nil => intro h hh; exact hh
  | cons i rest ih =>
    intro h hh
    exact ih _ (isHistogram_incrCounter hh _)

theorem scanOffsets_getD (data : List Int) (offsets : List Nat) (v : Nat) :
    ∀ h, IsHistogram h →
      (scanOffsets data offsets h).getD v 0
        = wrapInt32 (h.getD v 0 + (offsets.countP (fun i => toUChar (data.getD i 0) == v) : Nat)) := by
  induction offsets with
  | nil =>
    intro h hh
    show h.getD v 0 = wrapInt32 (h.getD v 0 + ((0 : Nat) : Int))
    rw [Nat.cast_zero, add_zero, hh.2 v]
  | cons i rest ih =>
    intro h hh
    have hstep : scanOffsets data (i :: rest) h
        = scanOffsets data rest (incrCounter h (toUChar (data.getD i 0))) := rfl
    rw [hstep, ih _ (isHistogram_incrCounter hh _), incrCounter_getD, List.countP_cons]
    have hb : toUChar (data.getD i 0) < h.length := by rw [hh.1]; exact toUChar_lt _
    by_cases hv : v = toUChar (data.getD i 0)
    · have hbeq : (toUChar (data.getD i 0) == v) = true := by simp [hv]
      rw [if_pos ⟨hv, hb⟩, hbeq, wrapInt32_add_left]
      simp only [if_true]
      push_cast
      congr 1; ring
    · have hbeq : (toUChar (data.getD i 0) == v) = false := by
        simp only [beq_eq_false_iff_ne, ne_eq]
        exact fun e => hv e.symm
      rw [if_neg (fun hc => hv hc.1), hbeq]
      simp

theorem processChunkGlobal_getD (data : List Int) (start stop v : Nat) {h : List Int}
    (hh : IsHistogram h) :
    (processChunkGlobal data start stop h).getD v 0
      = wrapInt32 (h.getD v 0 + (countRange data v start stop : Nat)) :=
  scanOffsets_getD data _ v h hh

theorem processChunkLocal_getD (data : List Int) (start stop v : Nat) {h : List Int}
    (hh : IsHistogram h) :
    (processChunkLocal data start stop h).getD v 0
      = wrapInt32 (h.getD v 0 + (countRange data v start stop : Nat)) :=
  scanOffsets_getD data _ v h hh

theorem isHistogram_processChunkGlobal (data : List Int) (start stop : Nat) {h : List Int}
    (hh : IsHistogram h) : IsHistogram (processChunkGlobal data start stop h) :=
  isHistogram_scanOffsets data _ h hh

theorem isHistogram_processChunkLocal (data : List Int) (start stop : Nat) {h : List Int}
    (hh : IsHistogram h) : IsHistogram (processChunkLocal data start stop h) :=
  isHistogram_scanOffsets data _ h hh

/-! ## The merge loop -/

theorem mergeFold_spec (l : List Int) (g : List Int) (hg : g.length = 256) (v : Nat) :
    ∀ k, k ≤ 256 →
      ((List.range k).foldl (fun g i => g.set i (wrapInt32 (g.getD i 0 + l.getD i 0))) g).length = 256
      ∧ ((List.range k).foldl (fun g i => g.set i (wrapInt32 (g.getD i 0 + l.getD i 0))) g).getD v 0
          = if v < k then wrapInt32 (g.getD v 0 + l.getD v 0) else g.getD v 0 := by
  intro k
  induction k generalizing v with
  | zero => intro _; exact ⟨hg, by simp⟩
  | succ k ih =>
    intro hk
    have hk' : k ≤ 256 := by omega
    rw [List.range_succ, List.foldl_append]
    simp only [List.foldl_cons, List.foldl_nil]
    refine ⟨by rw [List.length_set]; exact (ih v hk').1, ?_⟩
    rw [getD_set_int, (ih k hk').1, (ih k hk').2, (ih v hk').2]
    by_cases hvk : v = k
    · subst hvk
      have h1 : v < 256 := by omega
      simp [h1]
    · rw [if_neg (fun hc => hvk hc.1)]
      by_cases hlt : v < k
      · rw [if_pos hlt, if_pos (by omega)]
      · rw [if_neg hlt, if_neg (by omega)]

theorem mergeHistograms_getD {g l : List Int} (hg : IsHistogram g) (v : Nat) (hv : v < 256) :
    (mergeHistograms g (some l)).getD v 0 = wrapInt32 (g.getD v 0 + l.getD v 0) := by
  have h := (mergeFold_spec l g hg.1 v 256 (Nat.le_refl _)).2
  rw [if_pos hv] at h
  exact h

theorem isHistogram_mergeHistograms {g : List Int} (hg : IsHistogram g) (l : List Int) :
    IsHistogram (mergeHistograms g (some l)) := by
  refine ⟨(mergeFold_spec l g hg.1 0 256 (Nat.le_refl _)).1, fun v => ?_⟩
  by_cases hv : v < 256
  · rw [mergeHistograms_getD hg v hv, wrapInt32_idem]
  · have h := (mergeFold_spec l g hg.1 v 256 (Nat.le_refl _)).2
    rw [if_neg hv] at h
    show wrapInt32 ((mergeHistograms g (some l)).getD v 0) = (mergeHistograms g (some l)).getD v 0
    have h' : (mergeHistograms g (some l)).getD v 0 = g.getD v 0 := h
    rw [h', hg.2 v]

/-! ## Partition arithmetic -/

theorem wrapUInt_pred {W : Nat} (hW : 1 ≤ W) (hW32 : W < 4294967296) :
    wrapUInt (W + 4294967295) = W - 1 := by
  unfold wrapUInt; omega

theorem chunkStart_eq {N W i : Nat} (hi : i ≤ W) (hN : N < 18446744073709551616) :
    chunkStart N W i = i * (N / W) := by
  unfold chunkStart chunkSize wrapSize
  apply Nat.mod_eq_of_lt
  have h1 : i * (N / W) ≤ W * (N / W) := Nat.mul_le_mul_right _ hi
  have h2 : W * (N / W) ≤ N := Nat.mul_div_le N W
  omega

theorem chunkEnd_last {N W : Nat} (hW : 1 ≤ W) (hW32 : W < 4294967296) :
    chunkEnd N W (W - 1) = N := by
  unfold chunkEnd
  rw [wrapUInt_pred hW hW32, if_pos rfl]

theorem chunkEnd_eq {N W i : Nat} (hW32 : W < 4294967296) (hN : N < 18446744073709551616)
    (hi : i + 1 < W) : chunkEnd N W i = (i + 1) * (N / W) := by
  unfold chunkEnd
  rw [wrapUInt_pred (by omega) hW32, if_neg (by omega), chunkStart_eq (by omega) hN]
  unfold chunkSize wrapSize
  have h1 : (i + 1) * (N / W) ≤ W * (N / W) := Nat.mul_le_mul_right _ (by omega)
  have h2 : W * (N / W) ≤ N := Nat.mul_div_le N W
  have h3 : i * (N / W) + N / W = (i + 1) * (N / W) := by ring
  rw [h3]
  apply Nat.mod_eq_of_lt
  omega

theorem chunkEnd_eq_start_succ {N W i : Nat} (hW32 : W < 4294967296)
    (hN : N < 18446744073709551616) (hi : i + 1 < W) :
    chunkEnd N W i = chunkStart N W (i + 1) := by
  rw [chunkEnd_eq hW32 hN hi, chunkStart_eq (by omega) hN]

theorem chunkStart_mono {N W i j : Nat} (hij : i ≤ j) (hj : j ≤ W)
    (hN : N < 18446744073709551616) : chunkStart N W i ≤ chunkStart N W j := by
  rw [chunkStart_eq (by omega) hN, chunkStart_eq hj hN]
  exact Nat.mul_le_mul_right _ hij

theorem chunkStart_le {N W i : Nat} (hi : i ≤ W) (hN : N < 18446744073709551616) :
    chunkStart N W i ≤ N := by
  rw [chunkStart_eq hi hN]
  have h1 : i * (N / W) ≤ W * (N / W) := Nat.mul_le_mul_right _ hi
  have h2 : W * (N / W) ≤ N := Nat.mul_div_le N W
  omega

theorem chunk_bounds {N W i : Nat} (hW32 : W < 4294967296)
    (hN : N < 18446744073709551616) (hi : i < W) :
    chunkStart N W i ≤ chunkEnd N W i ∧ chunkEnd N W i ≤ N := by
  by_cases hl : i + 1 < W
  · rw [chunkEnd_eq_start_succ hW32 hN hl]
    exact ⟨chunkStart_mono (by omega) (by omega) hN, chunkStart_le (by omega) hN⟩
  · have hi' : i = W - 1 := by omega
    subst hi'
    rw [chunkEnd_last (by omega) hW32]
    exact ⟨chunkStart_le (by omega) hN, Nat.le_refl _⟩

theorem chunkEnd_le_start {N W i j : Nat} (hW32 : W < 4294967296)
    (hN : N < 18446744073709551616) (hij : i < j) (hj : j < W) :
    chunkEnd N W i ≤ chunkStart N W j := by
  rw [chunkEnd_eq_start_succ hW32 hN (by omega)]
  exact chunkStart_mono (by omega) (by omega) hN

/-! ## Counting over ranges -/

theorem countRange_add (data : List Int) (v : Nat) {lo mid hi : Nat} (h1 : lo ≤ mid)
    (h2 : mid ≤ hi) :
    countRange data v lo mid + countRange data v mid hi = countRange data v lo hi := by
  unfold countRange
  rw [← List.countP_append]
  have e1 : lo + (mid - lo) = mid := by omega
  have e2 : hi - mid + (mid - lo) = hi - lo := by omega
  have := List.range'_append_1 lo (mid - lo) (hi - mid)
  rw [e1, e2] at this
  rw [this]

theorem countRange_self (data : List Int) (v lo : Nat) : countRange data v lo lo = 0 := by
  unfold countRange
  rw [Nat.sub_self]
  rfl

theorem byteCount_eq_countRange (data : List Int) (v : Nat) :
    byteCount data v = countRange data v 0 data.length := by
  unfold byteCount countRange
  rw [List.range_eq_range', Nat.sub_zero]

theorem countRange_le (data : List Int) (v lo hi : Nat) : countRange data v lo hi ≤ hi - lo := by
  unfold countRange
  have := @List.countP_le_length _ (fun i => toUChar (data.getD i 0) == v) (List.range' lo (hi - lo))
  rw [List.length_range'] at this
  exact this

theorem byteCount_le_length (data : List Int) (v : Nat) : byteCount data v ≤ data.length := by
  rw [byteCount_eq_countRange]
  exact countRange_le data v 0 data.length

theorem sum_indicator_byte (b n : Nat) (hb : b < n) :
    (∑ v in Finset.range n, if (b == v) = true then 1 else 0) = 1 := by
  have : ∀ v ∈ Finset.range n, (if (b == v) = true then 1 else 0) = if b = v then 1 else 0 := by
    intro v _
    simp
  rw [Finset.sum_congr rfl this, Finset.sum_ite_eq, if_pos (Finset.mem_range.2 hb)]

theorem sum_countP_bytes (data : List Int) (offsets : List Nat) :
    (∑ v in Finset.range 256, offsets.countP (fun i => toUChar (data.getD i 0) == v))
      = offsets.length := by
  induction offsets with
  | nil => exact Finset.sum_const_zero
  | cons i rest ih =>
    simp only [List.countP_cons, List.length_cons]
    rw [Finset.sum_add_distrib, ih, sum_indicator_byte _ _ (toUChar_lt _)]

theorem sum_byteCount (data : List Int) :
    (∑ v in Finset.range 256, byteCount data v) = data.length := by
  unfold byteCount
  rw [sum_countP_bytes, List.length_range]

theorem length_le_of_counts {data : List Int}
    (hcnt : ∀ v, v < 256 → byteCount data v ≤ 2147483647) :
    data.length ≤ 256 * 2147483647 := by
  rw [← sum_byteCount data]
  have h := Finset.sum_le_card_nsmul (Finset.range 256) (fun v => byteCount data v) 2147483647
    (fun v hv => hcnt v (Finset.mem_range.1 hv))
  simpa using h

theorem hist_ext {a b : List Int} (ha : a.length = 256) (hb : b.length = 256)
    (h : ∀ v, v < 256 → a.getD v 0 = b.getD v 0) : a = b := by
  apply List.ext_getElem (ha.trans hb.symm)
  intro n h1 h2
  have := h n (by omega)
  rw [List.getD_eq_getElem _ _ h1, List.getD_eq_getElem _ _ h2] at this
  exact this

theorem list_sum_map_range (f : Nat → Int) (n : Nat) :
    ((List.range n).map f).sum = ∑ v in Finset.range n, f v := by
  induction n with
  | zero => simp
  | succ n ih =>
    rw [List.range_succ, List.map_append, List.sum_append, ih, Finset.sum_range_succ]
    simp

theorem histogramTotal_eq {h : List Int} (hl : h.length = 256) :
    histogramTotal h = ∑ v in Finset.range 256, h.getD v 0 := by
  have e : h = (List.range 256).map (fun v => h.getD v 0) := by
    apply List.ext_getElem
    · rw [List.length_map, List.length_range, hl]
    · intro n h1 h2
      rw [List.getElem_map, List.getElem_range, List.getD_eq_getElem _ _ h1]
  unfold histogramTotal
  rw [← list_sum_map_range]
  exact congrArg List.sum e

/-! ## The sequential runs -/

theorem globalPrefix_spec (data : List Int) (W : Nat) (hW32 : W < 4294967296)
    (hN : data.length < 18446744073709551616) {g : List Int} (hg : IsHistogram g) (v : Nat) :
    ∀ k, k < W →
      IsHistogram ((List.range k).foldl
        (fun h i => processChunkGlobal data (chunkStart data.length W i)
          (chunkEnd data.length W i) h) g)
      ∧ ((List.range k).foldl
        (fun h i => processChunkGlobal data (chunkStart data.length W i)
          (chunkEnd data.length W i) h) g).getD v 0
        = wrapInt32 (g.getD v 0 + (countRange data v 0 (chunkStart data.length W k) : Nat)) := by
  intro k
  induction k generalizing v with
  | zero =>
    intro _
    refine ⟨hg, ?_⟩
    have h0 : chunkStart data.length W 0 = 0 := by
      rw [chunkStart_eq (Nat.zero_le _) hN, Nat.zero_mul]
    rw [h0, countRange_self]
    show g.getD v 0 = wrapInt32 (g.getD v 0 + ((0 : Nat) : Int))
    rw [Nat.cast_zero, add_zero, hg.2 v]
  | succ k ih =>
    intro hk
    have hk' : k < W := by omega
    rw [List.range_succ, List.foldl_append]
    simp only [List.foldl_cons, List.foldl_nil]
    refine ⟨isHistogram_processChunkGlobal data _ _ (ih v hk').1, ?_⟩
    rw [processChunkGlobal_getD data _ _ v (ih v hk').1, (ih v hk').2, wrapInt32_add_left,
      chunkEnd_eq_start_succ hW32 hN hk,
      ← countRange_add data v (Nat.zero_le _)
        (chunkStart_mono (Nat.le_succ k) (Nat.le_of_lt hk) hN)]
    push_cast
    rw [add_assoc]

theorem globalStrategyFrom_spec (data : List Int) (W : Nat) (hW : 1 ≤ W) (hW32 : W < 4294967296)
    (hN : data.length < 18446744073709551616) {g : List Int} (hg : IsHistogram g) (v : Nat) :
    IsHistogram (globalStrategyFrom data W g)
    ∧ (globalStrategyFrom data W g).getD v 0 = wrapInt32 (g.getD v 0 + (byteCount data v : Nat)) := by
  have hpre := globalPrefix_spec data W hW32 hN hg
  have hWk : W = (W - 1) + 1 := by omega
  unfold globalStrategyFrom
  rw [hWk, List.range_succ, List.foldl_append]
  simp only [List.foldl_cons, List.foldl_nil]
  rw [← hWk]
  have hlt : W - 1 < W := by omega
  refine ⟨isHistogram_processChunkGlobal data _ _ (hpre v (W - 1) hlt).1, ?_⟩
  rw [processChunkGlobal_getD data _ _ v (hpre v (W - 1) hlt).1, (hpre v (W - 1) hlt).2,
    wrapInt32_add_left, chunkEnd_last hW hW32, byteCount_eq_countRange,
    ← countRange_add data v (Nat.zero_le _) (chunkStart_le (Nat.sub_le W 1) hN)]
  push_cast
  rw [add_assoc]

theorem globalStrategy_getD (data : List Int) (W : Nat) (hW : 1 ≤ W) (hW32 : W < 4294967296)
    (hN : data.length < 18446744073709551616) (v : Nat) :
    (globalStrategy data W).getD v 0 = wrapInt32 (byteCount data v : Nat) := by
  unfold globalStrategy
  rw [(globalStrategyFrom_spec data W hW hW32 hN isHistogram_zero v).2, zeroHistogram_getD,
    zero_add]

theorem isHistogram_globalStrategy (data : List Int) (W : Nat) (hW : 1 ≤ W)
    (hW32 : W < 4294967296) (hN : data.length < 18446744073709551616) :
    IsHistogram (globalStrategy data W) :=
  (globalStrategyFrom_spec data W hW hW32 hN isHistogram_zero 0).1

theorem localHistograms_getD (data : List Int) (W i : Nat) (hi : i < W) :
    (localHistograms data W).getD i none
      = some (processChunkLocal data (chunkStart data.length W i)
          (chunkEnd data.length W i) zeroHistogram) := by
  unfold localHistograms
  rw [List.getD_eq_getElem?_getD, List.getElem?_map, List.getElem?_range hi]
  rfl

theorem mergeLoop_succ (locals : List (Option (List Int))) (k : Nat) (g : List Int) :
    mergeLoop locals (k + 1) g = mergeHistograms (mergeLoop locals k g) (locals.getD k none) := by
  unfold mergeLoop
  rw [List.range_succ, List.foldl_append]
  rfl

theorem mergeStep_spec (data : List Int) (W : Nat) {g : List Int} (hg : IsHistogram g)
    (k : Nat) (hk : k < W) :
    IsHistogram (mergeHistograms g ((localHistograms data W).getD k none))
    ∧ ∀ v, v < 256 →
      (mergeHistograms g ((localHistograms data W).getD k none)).getD v 0
        = wrapInt32 (g.getD v 0
            + (countRange data v (chunkStart data.length W k) (chunkEnd data.length W k) : Nat)) := by
  rw [localHistograms_getD data W k hk]
  refine ⟨isHistogram_mergeHistograms hg _, fun v hv => ?_⟩
  rw [mergeHistograms_getD hg v hv, processChunkLocal_getD data _ _ v isHistogram_zero,
    zeroHistogram_getD, zero_add, wrapInt32_add_right]

theorem mergePrefix_spec (data : List Int) (W : Nat) (hW32 : W < 4294967296)
    (hN : data.length < 18446744073709551616) {g : List Int} (hg : IsHistogram g) :
    ∀ k, k < W →
      IsHistogram (mergeLoop (localHistograms data W) k g)
      ∧ ∀ v, v < 256 → (mergeLoop (localHistograms data W) k g).getD v 0
        = wrapInt32 (g.getD v 0 + (countRange data v 0 (chunkStart data.length W k) : Nat)) := by
  intro k
  induction k with
  | zero =>
    intro _
    refine ⟨hg, fun v _ => ?_⟩
    have h0 : chunkStart data.length W 0 = 0 := by
      rw [chunkStart_eq (Nat.zero_le _) hN, Nat.zero_mul]
    rw [h0, countRange_self]
    show g.getD v 0 = wrapInt32 (g.getD v 0 + ((0 : Nat) : Int))
    rw [Nat.cast_zero, add_zero, hg.2 v]
  | succ k ih =>
    intro hk
    have hk' : k < W := by omega
    rw [mergeLoop_succ]
    have hstep := mergeStep_spec data W (ih hk').1 k hk'
    refine ⟨hstep.1, fun v hv => ?_⟩
    rw [hstep.2 v hv, (ih hk').2 v hv, wrapInt32_add_left,
      chunkEnd_eq_start_succ hW32 hN hk,
      ← countRange_add data v (Nat.zero_le _)
        (chunkStart_mono (Nat.le_succ k) (Nat.le_of_lt hk) hN)]
    push_cast
    rw [add_assoc]

theorem localStrategy_spec (data : List Int) (W : Nat) (hW : 1 ≤ W) (hW32 : W < 4294967296)
    (hN : data.length < 18446744073709551616) :
    IsHistogram (localStrategy data W)
    ∧ ∀ v, v < 256 → (localStrategy data W).getD v 0 = wrapInt32 (byteCount data v : Nat) := by
  have hlt : W - 1 < W := by omega
  have hpre := mergePrefix_spec data W hW32 hN isHistogram_zero (W - 1) hlt
  have hWk : W = (W - 1) + 1 := by omega
  have hstep := mergeStep_spec data W hpre.1 (W - 1) hlt
  have he : localStrategy data W
      = mergeHistograms (mergeLoop (localHistograms data W) (W - 1) zeroHistogram)
          ((localHistograms data W).getD (W - 1) none) := by
    unfold localStrategy
    rw [← mergeLoop_succ, ← hWk]
  rw [he]
  refine ⟨hstep.1, fun v hv => ?_⟩
  rw [hstep.2 v hv, hpre.2 v hv, wrapInt32_add_left, zeroHistogram_getD, zero_add,
    chunkEnd_last hW hW32, byteCount_eq_countRange,
    ← countRange_add data v (Nat.zero_le _) (chunkStart_le (Nat.sub_le W 1) hN)]
  push_cast
  rfl

theorem wrapInt32_count {n : Nat} (h : n ≤ 2147483647) : wrapInt32 (n : Nat) = n := by
  apply wrapInt32_of_range <;> omega

theorem byteCount_replicate_zero (n : Nat) : byteCount (List.replicate n 0) 0 = n := by
  unfold byteCount
  have hall : ∀ i ∈ List.range (List.replicate n (0 : Int)).length,
      (fun i => toUChar ((List.replicate n (0 : Int)).getD i 0) == 0) i = true := by
    intro i _
    have : (List.replicate n (0 : Int)).getD i 0 = 0 := by
      simp only [List.getD_eq_getElem?_getD, List.getElem?_replicate]
      split <;> rfl
    simp only [this]
    rfl
  rw [List.countP_eq_length.2 hall, List.length_range, List.length_replicate]

theorem byteCount_replicate_zero_ne (n v : Nat) (hv : v ≠ 0) :
    byteCount (List.replicate n 0) v = 0 := by
  unfold byteCount
  rw [List.countP_eq_zero]
  intro i _
  have : (List.replicate n (0 : Int)).getD i 0 = 0 := by
    simp only [List.getD_eq_getElem?_getD, List.getElem?_replicate]
    split <;> rfl
  simp only [this]
  have h0 : toUChar 0 = 0 := rfl
  rw [h0]
  simp only [beq_iff_eq]
  exact fun e => hv e.symm

theorem histogramTotal_of_counts {h : List Int} {data : List Int} (hl : h.length = 256)
    (hv : ∀ v, v < 256 → h.getD v 0 = (byteCount data v : Nat)) :
    histogramTotal h = data.length := by
  rw [histogramTotal_eq hl, Finset.sum_congr rfl (fun v hm => hv v (Finset.mem_range.1 hm)),
    ← Nat.cast_sum, sum_byteCount]

theorem localStrategy_eq_globalStrategy (data : List Int) (W : Nat) (hW : 1 ≤ W)
    (hW32 : W < 4294967296) (hN : data.length < 18446744073709551616) :
    localStrategy data W = globalStrategy data W := by
  have hl := localStrategy_spec data W hW hW32 hN
  have hg := isHistogram_globalStrategy data W hW hW32 hN
  apply hist_ext hl.1.1 hg.1
  intro v hv
  rw [hl.2 v hv, globalStrategy_getD data W hW hW32 hN v]

/-! ## Claims about the partition -/

theorem chunk_cover_exists {N W x : Nat} (hW : 1 ≤ W) (hW32 : W < 4294967296)
    (hN : N < 18446744073709551616) (hx : x < N) :
    ∃ i, i < W ∧ chunkStart N W i ≤ x ∧ x < chunkEnd N W i := by
  by_cases hq : x / (N / W) + 1 < W ∧ 0 < N / W
  · obtain ⟨hq, hc⟩ := hq
    refine ⟨x / (N / W), Nat.lt_of_succ_lt hq, ?_, ?_⟩
    · rw [chunkStart_eq (by omega) hN]
      exact Nat.div_mul_le_self x (N / W)
    · rw [chunkEnd_eq hW32 hN hq]
      have h1 := Nat.div_add_mod x (N / W)
      have h2 := Nat.mod_lt x hc
      have h3 : (x / (N / W) + 1) * (N / W) = N / W * (x / (N / W)) + N / W := by ring
      generalize N / W = c at h1 h2 h3 ⊢
      generalize x / c = q at h1 h3 ⊢
      generalize x % c = r at h1 h2
      omega
  · refine ⟨W - 1, by omega, ?_, ?_⟩
    · rw [chunkStart_eq (by omega) hN]
      by_cases hc : 0 < N / W
      · have hq' : W - 1 ≤ x / (N / W) := by
          by_contra hcon
          generalize x / (N / W) = q at hq hcon
          exact hq ⟨by omega, hc⟩
        exact (Nat.le_div_iff_mul_le hc).1 hq'
      · have h0 : N / W = 0 := Nat.eq_zero_of_not_pos hc
        rw [h0, Nat.mul_zero]
        exact Nat.zero_le _
    · rw [chunkEnd_last hW hW32]
      exact hx

/-- C3. For every buffer length `N` (a `size_t`) and worker count `W >= 1` (an
`unsigned int`) the ranges `[chunkStart i, chunkEnd i)` of `main` satisfy
`start_i <= end_i <= N`, are ordered by start offset, end before the next one
starts (so are pairwise disjoint), and every offset of `[0, N)` lies in exactly
one of them. -/
theorem partition_covers (N W : Nat) (hW : 1 ≤ W) (hW32 : W < 4294967296)
    (hN : N < 18446744073709551616) :
    (∀ i, i < W → chunkStart N W i ≤ chunkEnd N W i ∧ chunkEnd N W i ≤ N) ∧
    (∀ i j, i < j → j < W →
      chunkStart N W i ≤ chunkStart N W j ∧ chunkEnd N W i ≤ chunkStart N W j) ∧
    (∀ x, x < N → ∃! i, i < W ∧ chunkStart N W i ≤ x ∧ x < chunkEnd N W i) := by
  refine ⟨fun i hi => chunk_bounds hW32 hN hi, fun i j hij hj => ?_, fun x hx => ?_⟩
  · exact ⟨chunkStart_mono (by omega) (by omega) hN, chunkEnd_le_start hW32 hN hij hj⟩
  · obtain ⟨i, hi, hs, he⟩ := chunk_cover_exists hW hW32 hN hx
    refine ⟨i, ⟨hi, hs, he⟩, ?_⟩
    rintro j ⟨hj, hjs, hje⟩
    rcases Nat.lt_trichotomy j i with hlt | heq | hgt
    · have := chunkEnd_le_start hW32 hN hlt hi
      omega
    · exact heq
    · have := chunkEnd_le_start hW32 hN hgt hj
      omega

theorem partition_covers_witness :
    (1 ≤ 4 ∧ 4 < 4294967296 ∧ 10 < 18446744073709551616) ∧
    ((∀ i, i < 4 → chunkStart 10 4 i ≤ chunkEnd 10 4 i ∧ chunkEnd 10 4 i ≤ 10) ∧
    (∀ i j, i < j → j < 4 →
      chunkStart 10 4 i ≤ chunkStart 10 4 j ∧ chunkEnd 10 4 i ≤ chunkStart 10 4 j) ∧
    (∀ x, x < 10 → ∃! i, i < 4 ∧ chunkStart 10 4 i ≤ x ∧ x < chunkEnd 10 4 i)) :=
  ⟨by decide, partition_covers 10 4 (by decide) (by decide) (by decide)⟩

/-- C4. For every buffer length `N` and worker count `W >= 1`, each of the
first `W-1` ranges has length `N / W`, the last has length
`N - (W-1) * (N / W)`; when `N < W` the first `W-1` ranges are empty and the
last has length `N`. -/
theorem partition_lengths (N W : Nat) (hW : 1 ≤ W) (hW32 : W < 4294967296)
    (hN : N < 18446744073709551616) :
    (∀ i, i + 1 < W → chunkEnd N W i - chunkStart N W i = N / W) ∧
    chunkEnd N W (W - 1) - chunkStart N W (W - 1) = N - (W - 1) * (N / W) ∧
    (N < W → (∀ i, i + 1 < W → chunkStart N W i = chunkEnd N W i) ∧
      chunkEnd N W (W - 1) - chunkStart N W (W - 1) = N) := by
  have hfirst : ∀ i, i + 1 < W → chunkEnd N W i - chunkStart N W i = N / W := by
    intro i hi
    rw [chunkEnd_eq hW32 hN hi, chunkStart_eq (by omega) hN]
    have h3 : (i + 1) * (N / W) = i * (N / W) + N / W := by ring
    generalize N / W = c at h3 ⊢
    omega
  have hlast : chunkEnd N W (W - 1) - chunkStart N W (W - 1) = N - (W - 1) * (N / W) := by
    rw [chunkEnd_last hW hW32, chunkStart_eq (by omega) hN]
  refine ⟨hfirst, hlast, fun hlt => ?_⟩
  have h0 : N / W = 0 := Nat.div_eq_of_lt hlt
  refine ⟨fun i hi => ?_, ?_⟩
  · have h1 := hfirst i hi
    have h2 := (chunk_bounds hW32 hN (show i < W by omega)).1
    rw [h0] at h1
    omega
  · rw [hlast, h0, Nat.mul_zero, Nat.sub_zero]

theorem partition_lengths_witness :
    (1 ≤ 4 ∧ 4 < 4294967296 ∧ 10 < 18446744073709551616) ∧
    ((∀ i, i + 1 < 4 → chunkEnd 10 4 i - chunkStart 10 4 i = 10 / 4) ∧
    chunkEnd 10 4 (4 - 1) - chunkStart 10 4 (4 - 1) = 10 - (4 - 1) * (10 / 4) ∧
    (10 < 4 → (∀ i, i + 1 < 4 → chunkStart 10 4 i = chunkEnd 10 4 i) ∧
      chunkEnd 10 4 (4 - 1) - chunkStart 10 4 (4 - 1) = 10)) :=
  ⟨by decide, partition_lengths 10 4 (by decide) (by decide) (by decide)⟩

/-! ## Claims about the two strategies -/

/-- C1, as amended. For every byte buffer in which no byte value occurs more
than `2^31 - 1` times and every worker count `W >= 1`, starting from the
all-zero global histogram, after the `W` workers have run `processChunkGlobal`
on the ranges of `main`, each counter `v` in `0..255` equals the number of
positions of the buffer whose byte, read as unsigned, is `v`. -/
theorem globalStrategy_counts (data : List Int) (W : Nat) (hW : 1 ≤ W) (hW32 : W < 4294967296)
    (hcnt : ∀ v, v < 256 → byteCount data v ≤ 2147483647) (v : Nat) (hv : v < 256) :
    (globalStrategy data W).getD v 0 = (byteCount data v : Nat) := by
  have hN : data.length < 18446744073709551616 := by
    have := length_le_of_counts hcnt
    omega
  rw [globalStrategy_getD data W hW hW32 hN v, wrapInt32_count (hcnt v hv)]

theorem globalStrategy_counts_witness :
    (1 ≤ 2 ∧ 2 < 4294967296) ∧
    (globalStrategy [0x41, 0x41, 0x42, 0x00] 2).getD 0x41 0
      = (byteCount [0x41, 0x41, 0x42, 0x00] 0x41 : Nat) :=
  ⟨by decide, globalStrategy_counts [0x41, 0x41, 0x42, 0x00] 2 (by decide) (by decide)
    (fun v _ => Nat.le_trans (byteCount_le_length _ v) (by decide)) 0x41 (by decide)⟩

/-- C1 as stated fails: on a buffer of `2^31` zero bytes with one worker the
32-bit counter of byte `0` ends at `-2^31`, while `2^31` positions hold `0`. -/
theorem globalStrategy_counts_overflow :
    (globalStrategy (List.replicate 2147483648 0) 1).getD 0 0 = -2147483648
    ∧ byteCount (List.replicate 2147483648 0) 0 = 2147483648 := by
  refine ⟨?_, byteCount_replicate_zero _⟩
  rw [globalStrategy_getD _ 1 (by decide) (by decide)
    (by rw [List.length_replicate]; decide), byteCount_replicate_zero]
  decide

/-- C2. For every byte buffer and every worker count `W >= 1`, the histogram
obtained by resetting the global histogram, scanning each range into its own
zeroed array with `processChunkLocal` and merging once per worker equals, on
all 256 counters, the histogram the shared strategy produces. -/
theorem strategies_agree (data : List Int) (W : Nat) (hW : 1 ≤ W) (hW32 : W < 4294967296)
    (hN : data.length < 18446744073709551616) :
    (localStrategy data W).length = 256 ∧ (globalStrategy data W).length = 256 ∧
    localStrategy data W = globalStrategy data W :=
  ⟨(localStrategy_spec data W hW hW32 hN).1.1, (isHistogram_globalStrategy data W hW hW32 hN).1,
    localStrategy_eq_globalStrategy data W hW hW32 hN⟩

theorem strategies_agree_witness :
    (1 ≤ 2 ∧ 2 < 4294967296 ∧ sampleBuffer.length < 18446744073709551616) ∧
    ((localStrategy sampleBuffer 2).length = 256 ∧ (globalStrategy sampleBuffer 2).length = 256 ∧
    localStrategy sampleBuffer 2 = globalStrategy sampleBuffer 2) :=
  ⟨by decide, strategies_agree sampleBuffer 2 (by decide) (by decide) (by decide)⟩

/-- C5, as amended. For every byte buffer of length `N` in which no byte value
occurs more than `2^31 - 1` times and every worker count `W >= 1`, the 256
counters of the global histogram sum to `N` after the shared-strategy run, and
again after the reset, local-strategy run and merge. -/
theorem histogram_totals (data : List Int) (W : Nat) (hW : 1 ≤ W) (hW32 : W < 4294967296)
    (hcnt : ∀ v, v < 256 → byteCount data v ≤ 2147483647) :
    histogramTotal (globalStrategy data W) = data.length
    ∧ histogramTotal (localStrategy data W) = data.length := by
  have hN : data.length < 18446744073709551616 := by
    have := length_le_of_counts hcnt
    omega
  have hg : ∀ v, v < 256 → (globalStrategy data W).getD v 0 = (byteCount data v : Nat) :=
    fun v hv => by rw [globalStrategy_getD data W hW hW32 hN v, wrapInt32_count (hcnt v hv)]
  refine ⟨histogramTotal_of_counts (isHistogram_globalStrategy data W hW hW32 hN).1 hg, ?_⟩
  rw [localStrategy_eq_globalStrategy data W hW hW32 hN]
  exact histogramTotal_of_counts (isHistogram_globalStrategy data W hW hW32 hN).1 hg

theorem histogram_totals_witness :
    (1 ≤ 3 ∧ 3 < 4294967296) ∧
    (histogramTotal (globalStrategy [7, -1, 7, 200, 7] 3) = [7, -1, 7, 200, (7 : Int)].length
    ∧ histogramTotal (localStrategy [7, -1, 7, 200, 7] 3) = [7, -1, 7, 200, (7 : Int)].length) :=
  ⟨by decide, histogram_totals [7, -1, 7, 200, 7] 3 (by decide) (by decide)
    (fun v _ => Nat.le_trans (byteCount_le_length _ v) (by decide))⟩

/-- C5 as stated fails: on a buffer of `2^31` zero bytes with one worker the
256 counters of the shared run sum to `-2^31`, not to the length `2^31`. -/
theorem histogram_totals_overflow :
    histogramTotal (globalStrategy (List.replicate 2147483648 0) 1) = -2147483648
    ∧ (List.replicate 2147483648 (0 : Int)).length = 2147483648 := by
  refine ⟨?_, List.length_replicate _ _⟩
  have hN : (List.replicate 2147483648 (0 : Int)).length < 18446744073709551616 := by
    rw [List.length_replicate]; decide
  rw [histogramTotal_eq (isHistogram_globalStrategy _ 1 (by decide) (by decide) hN).1,
    Finset.sum_eq_single 0]
  · rw [globalStrategy_getD _ 1 (by decide) (by decide) hN, byteCount_replicate_zero]
    decide
  · intro v _ hv
    rw [globalStrategy_getD _ 1 (by decide) (by decide) hN, byteCount_replicate_zero_ne _ v hv]
    decide
  · intro h
    exact absurd (Finset.mem_range.2 (by decide)) h

/-! ## Interleaved runs of the shared strategy -/

theorem getD_set_nat (l : List Nat) (b v x : Nat) :
    (l.set b x).getD v 0 = if v = b ∧ b < l.length then x else l.getD v 0 := by
  simp only [List.getD_eq_getElem?_getD, List.getElem?_set]
  by_cases hvb : b = v
  · subst hvb
    by_cases hl : b < l.length
    · simp [hl]
    · have hn : l[b]? = none := List.getElem?_eq_none (Nat.le_of_not_lt hl)
      simp [hl, hn]
  · have : ¬ v = b := fun e => hvb e.symm
    simp [hvb, this]

theorem initShared_next (N W w : Nat) (hw : w < W) :
    (initShared N W).next.getD w 0 = chunkStart N W w := by
  unfold initShared
  rw [List.getD_eq_getElem?_getD, List.getElem?_map, List.getElem?_range hw]
  rfl

theorem countRange_succ (data : List Int) (v lo n : Nat) (h : lo ≤ n) :
    countRange data v lo (n + 1)
      = countRange data v lo n + if (toUChar (data.getD n 0) == v) = true then 1 else 0 := by
  rw [← countRange_add data v h (Nat.le_succ n)]
  congr 1
  unfold countRange
  have e : n + 1 - n = 1 := by omega
  rw [e]
  simp [List.range', List.countP_cons]

theorem countRange_mono (data : List Int) (v : Nat) {lo a b : Nat} (h1 : lo ≤ a) (h2 : a ≤ b) :
    countRange data v lo a ≤ countRange data v lo b := by
  rw [← countRange_add data v h1 h2]
  exact Nat.le_add_right _ _

theorem sum_chunk_prefix (data : List Int) (W : Nat) (hW32 : W < 4294967296)
    (hN : data.length < 18446744073709551616) (v : Nat) :
    ∀ k, k < W →
      (∑ w in Finset.range k,
        countRange data v (chunkStart data.length W w) (chunkEnd data.length W w))
        = countRange data v 0 (chunkStart data.length W k) := by
  intro k
  induction k with
  | zero =>
    intro _
    rw [Finset.sum_range_zero, chunkStart_eq (Nat.zero_le _) hN, Nat.zero_mul, countRange_self]
  | succ k ih =>
    intro hk
    rw [Finset.sum_range_succ, ih (by omega), chunkEnd_eq_start_succ hW32 hN hk]
    exact countRange_add data v (Nat.zero_le _)
      (chunkStart_mono (Nat.le_succ k) (Nat.le_of_lt hk) hN)

theorem sum_chunk_counts (data : List Int) (W : Nat) (hW : 1 ≤ W) (hW32 : W < 4294967296)
    (hN : data.length < 18446744073709551616) (v : Nat) :
    (∑ w in Finset.range W,
      countRange data v (chunkStart data.length W w) (chunkEnd data.length W w))
      = byteCount data v := by
  have hWk : W = (W - 1) + 1 := by omega
  rw [hWk, Finset.sum_range_succ, ← hWk, sum_chunk_prefix data W hW32 hN v (W - 1) (by omega),
    chunkEnd_last hW hW32, byteCount_eq_countRange]
  exact countRange_add data v (Nat.zero_le _) (chunkStart_le (Nat.sub_le W 1) hN)

theorem sharedInv_init (data : List Int) (W : Nat) (hW32 : W < 4294967296)
    (hN : data.length < 18446744073709551616) :
    SharedInv data W (initShared data.length W) := by
  refine ⟨isHistogram_zero, ?_, fun w hw => ?_, fun v => ?_⟩
  · simp [initShared]
  · rw [initShared_next _ _ _ hw]
    exact ⟨Nat.le_refl _, (chunk_bounds hW32 hN hw).1⟩
  · have h0 : processedCount data W (initShared data.length W) v = 0 := by
      unfold processedCount
      apply Finset.sum_eq_zero
      intro w hw
      rw [initShared_next _ _ _ (Finset.mem_range.1 hw), countRange_self]
    rw [h0]
    exact zeroHistogram_getD v

theorem stepWorker_eq {data : List Int} {W : Nat} {s s' : SharedState} {w : Nat}
    (h : stepWorker data W s w = some s') :
    (w < W ∧ s.next.getD w 0 < chunkEnd data.length W w) ∧
    s' = ⟨incrCounter s.global_histogram (toUChar (data.getD (s.next.getD w 0) 0)),
      s.next.set w (s.next.getD w 0 + 1)⟩ := by
  unfold stepWorker at h
  by_cases hc : w < W ∧ s.next.getD w 0 < chunkEnd data.length W w
  · rw [if_pos hc] at h
    exact ⟨hc, (Option.some.inj h).symm⟩
  · rw [if_neg hc] at h
    exact absurd h (by simp)

theorem processedCount_step (data : List Int) (W : Nat) (s : SharedState) (w v : Nat)
    (hlen : s.next.length = W) (hw : w < W)
    (hlo : chunkStart data.length W w ≤ s.next.getD w 0) :
    processedCount data W
        ⟨incrCounter s.global_histogram (toUChar (data.getD (s.next.getD w 0) 0)),
          s.next.set w (s.next.getD w 0 + 1)⟩ v
      = processedCount data W s v
        + if (toUChar (data.getD (s.next.getD w 0) 0) == v) = true then 1 else 0 := by
  unfold processedCount
  have hterm : ∀ x ∈ Finset.range W,
      countRange data v (chunkStart data.length W x)
          ((s.next.set w (s.next.getD w 0 + 1)).getD x 0)
        = countRange data v (chunkStart data.length W x) (s.next.getD x 0)
          + if w = x then
              (if (toUChar (data.getD (s.next.getD w 0) 0) == v) = true then 1 else 0)
            else 0 := by
    intro x _
    rw [getD_set_nat]
    by_cases hx : x = w
    · subst hx
      rw [if_pos ⟨rfl, by rw [hlen]; exact hw⟩, if_pos rfl, countRange_succ data v _ _ hlo]
    · rw [if_neg (fun hc => hx hc.1), if_neg (fun e => hx e.symm), Nat.add_zero]
  rw [Finset.sum_congr rfl hterm, Finset.sum_add_distrib, Finset.sum_ite_eq,
    if_pos (Finset.mem_range.2 hw)]

theorem sharedInv_step {data : List Int} {W : Nat} {s s' : SharedState} {w : Nat}
    (hinv : SharedInv data W s) (h : stepWorker data W s w = some s') :
    SharedInv data W s' := by
  obtain ⟨⟨hw, hlt⟩, rfl⟩ := stepWorker_eq h
  obtain ⟨hh, hlen, hb, hc⟩ := hinv
  refine ⟨isHistogram_incrCounter hh _, by simp [hlen], fun x hx => ?_, fun v => ?_⟩
  · show chunkStart data.length W x ≤ (s.next.set w (s.next.getD w 0 + 1)).getD x 0 ∧
      (s.next.set w (s.next.getD w 0 + 1)).getD x 0 ≤ chunkEnd data.length W x
    rw [getD_set_nat]
    by_cases hxw : x = w
    · subst hxw
      rw [if_pos ⟨rfl, by rw [hlen]; exact hw⟩]
      have := (hb x hx).1
      omega
    · rw [if_neg (fun hc => hxw hc.1)]
      exact hb x hx
  · rw [processedCount_step data W s w v hlen hw (hb w hw).1]
    show (incrCounter s.global_histogram (toUChar (data.getD (s.next.getD w 0) 0))).getD v 0 = _
    rw [incrCounter_getD, hc v]
    have hbl : toUChar (data.getD (s.next.getD w 0) 0) < s.global_histogram.length := by
      rw [hh.1]; exact toUChar_lt _
    by_cases hv : v = toUChar (data.getD (s.next.getD w 0) 0)
    · have hbeq : (toUChar (data.getD (s.next.getD w 0) 0) == v) = true := by simp [hv]
      rw [if_pos ⟨hv, hbl⟩, if_pos hbeq, wrapInt32_add_left]
      push_cast
      rfl
    · have hbeq : ¬ (toUChar (data.getD (s.next.getD w 0) 0) == v) = true := by
        simp only [beq_iff_eq]
        exact fun e => hv e.symm
      rw [if_neg (fun hc => hv hc.1), if_neg hbeq, Nat.add_zero]

theorem sharedInv_run {data : List Int} {W : Nat} (schedule : List Nat) :
    ∀ {s s' : SharedState}, SharedInv data W s →
      runSchedule data W s schedule = some s' → SharedInv data W s' := by
  induction schedule with
  | nil =>
    intro s s' hinv h
    have : s = s' := Option.some.inj h
    rw [← this]; exact hinv
  | cons w rest ih =>
    intro s s' hinv h
    unfold runSchedule at h
    cases hstep : stepWorker data W s w with
    | none => rw [hstep] at h; exact absurd h (by simp)
    | some s1 =>
      rw [hstep] at h
      exact ih (sharedInv_step hinv hstep) h

theorem processedCount_joined {data : List Int} {W : Nat} {s : SharedState} (hW : 1 ≤ W)
    (hW32 : W < 4294967296) (hN : data.length < 18446744073709551616)
    (hinv : SharedInv data W s) (hj : allJoined data W s) (v : Nat) :
    processedCount data W s v = byteCount data v := by
  rw [← sum_chunk_counts data W hW hW32 hN v]
  unfold processedCount
  apply Finset.sum_congr rfl
  intro w hw
  have hw' := Finset.mem_range.1 hw
  have h1 := (hinv.2.2.1 w hw').2
  have h2 := hj w hw'
  rw [Nat.le_antisymm h1 h2]

theorem processedCount_le {data : List Int} {W : Nat} {s : SharedState} (hW : 1 ≤ W)
    (hW32 : W < 4294967296) (hN : data.length < 18446744073709551616)
    (hinv : SharedInv data W s) (v : Nat) :
    processedCount data W s v ≤ byteCount data v := by
  rw [← sum_chunk_counts data W hW hW32 hN v]
  unfold processedCount
  apply Finset.sum_le_sum
  intro w hw
  have hw' := Finset.mem_range.1 hw
  exact countRange_mono data v (hinv.2.2.1 w hw').1 (hinv.2.2.1 w hw').2

theorem joined_histogram {data : List Int} {W : Nat} {s : SharedState} (hW : 1 ≤ W)
    (hW32 : W < 4294967296) (hN : data.length < 18446744073709551616)
    (hinv : SharedInv data W s) (hj : allJoined data W s) :
    s.global_histogram = globalStrategy data W := by
  apply hist_ext hinv.1.1 (isHistogram_globalStrategy data W hW hW32 hN).1
  intro v _
  rw [hinv.2.2.2 v, processedCount_joined hW hW32 hN hinv hj v,
    globalStrategy_getD data W hW hW32 hN v]

theorem remainingWork_step {data : List Int} {W : Nat} {s s' : SharedState} {w : Nat}
    (hinv : SharedInv data W s) (h : stepWorker data W s w = some s') :
    remainingWork data W s' < remainingWork data W s := by
  obtain ⟨⟨hw, hlt⟩, rfl⟩ := stepWorker_eq h
  unfold remainingWork
  have hlen := hinv.2.1
  apply Finset.sum_lt_sum
  · intro x _
    show chunkEnd data.length W x - (s.next.set w (s.next.getD w 0 + 1)).getD x 0
      ≤ chunkEnd data.length W x - s.next.getD x 0
    rw [getD_set_nat]
    by_cases hxw : x = w
    · subst hxw
      rw [if_pos ⟨rfl, by rw [hlen]; exact hw⟩]
      omega
    · rw [if_neg (fun hc => hxw hc.1)]
  · refine ⟨w, Finset.mem_range.2 hw, ?_⟩
    show chunkEnd data.length W w - (s.next.set w (s.next.getD w 0 + 1)).getD w 0
      < chunkEnd data.length W w - s.next.getD w 0
    rw [getD_set_nat, if_pos ⟨rfl, by rw [hlen]; exact hw⟩]
    omega

theorem exists_complete_from (data : List Int) (W : Nat) :
    ∀ n (s : SharedState), SharedInv data W s → remainingWork data W s ≤ n →
      ∃ schedule s', runSchedule data W s schedule = some s' ∧ allJoined data W s' := by
  intro n
  induction n with
  | zero =>
    intro s hinv hn
    by_cases hj : allJoined data W s
    · exact ⟨[], s, rfl, hj⟩
    · unfold allJoined at hj
      push_neg at hj
      obtain ⟨w, hw, hlt⟩ := hj
      have hstep : stepWorker data W s w
          = some ⟨incrCounter s.global_histogram (toUChar (data.getD (s.next.getD w 0) 0)),
              s.next.set w (s.next.getD w 0 + 1)⟩ := by
        unfold stepWorker
        rw [if_pos ⟨hw, hlt⟩]
      have := remainingWork_step hinv hstep
      omega
  | succ n ih =>
    intro s hinv hn
    by_cases hj : allJoined data W s
    · exact ⟨[], s, rfl, hj⟩
    · unfold allJoined at hj
      push_neg at hj
      obtain ⟨w, hw, hlt⟩ := hj
      have hstep : stepWorker data W s w
          = some ⟨incrCounter s.global_histogram (toUChar (data.getD (s.next.getD w 0) 0)),
              s.next.set w (s.next.getD w 0 + 1)⟩ := by
        unfold stepWorker
        rw [if_pos ⟨hw, hlt⟩]
      have hlt' := remainingWork_step hinv hstep
      obtain ⟨sched, s', hrun, hj'⟩ := ih _ (sharedInv_step hinv hstep) (by omega)
      refine ⟨w :: sched, s', ?_, hj'⟩
      show (match stepWorker data W s w with
        | none => none
        | some s1 => runSchedule data W s1 sched) = some s'
      rw [hstep]
      exact hrun

theorem exists_complete_schedule (data : List Int) (W : Nat) (hW32 : W < 4294967296)
    (hN : data.length < 18446744073709551616) :
    ∃ schedule s, runSchedule data W (initShared data.length W) schedule = some s
      ∧ allJoined data W s :=
  exists_complete_from data W _ _ (sharedInv_init data W hW32 hN) (Nat.le_refl _)

/-! ## Claims about scheduling -/

/-- C7, as amended. For every byte buffer in which no byte value occurs more
than `2^31 - 1` times and every worker count `W >= 1`: some interleaving of
the workers' lock-protected increments runs every worker to the end of its
range, and every interleaving that does so ends in the same global histogram,
that of the sequential run, in which each counter `v` holds the number of
bytes equal to `v` in the whole buffer. -/
theorem shared_interleavings (data : List Int) (W : Nat) (hW : 1 ≤ W) (hW32 : W < 4294967296)
    (hcnt : ∀ v, v < 256 → byteCount data v ≤ 2147483647) :
    (∃ schedule s, runSchedule data W (initShared data.length W) schedule = some s
      ∧ allJoined data W s) ∧
    ∀ schedule s, runSchedule data W (initShared data.length W) schedule = some s →
      allJoined data W s →
      s.global_histogram = globalStrategy data W ∧
      ∀ v, v < 256 → s.global_histogram.getD v 0 = (byteCount data v : Nat) := by
  have hN : data.length < 18446744073709551616 := by
    have := length_le_of_counts hcnt
    omega
  refine ⟨exists_complete_schedule data W hW32 hN, fun schedule s hrun hj => ?_⟩
  have hinv := sharedInv_run schedule (sharedInv_init data W hW32 hN) hrun
  refine ⟨joined_histogram hW hW32 hN hinv hj, fun v hv => ?_⟩
  rw [hinv.2.2.2 v, processedCount_joined hW hW32 hN hinv hj v, wrapInt32_count (hcnt v hv)]

/-- C7 as stated fails: on a buffer of `2^31` zero bytes with one worker there
are complete interleavings, and each of them leaves `-2^31` in the counter of
byte `0`, while `2^31` bytes equal `0`. -/
theorem shared_interleavings_overflow :
    (∃ schedule s, runSchedule (List.replicate 2147483648 0) 1
        (initShared (List.replicate 2147483648 (0 : Int)).length 1) schedule = some s
      ∧ allJoined (List.replicate 2147483648 0) 1 s) ∧
    (∀ schedule s, runSchedule (List.replicate 2147483648 0) 1
        (initShared (List.replicate 2147483648 (0 : Int)).length 1) schedule = some s →
      allJoined (List.replicate 2147483648 0) 1 s →
      s.global_histogram.getD 0 0 = -2147483648) ∧
    byteCount (List.replicate 2147483648 0) 0 = 2147483648 := by
  have hN : (List.replicate 2147483648 (0 : Int)).length < 18446744073709551616 := by
    rw [List.length_replicate]; decide
  refine ⟨exists_complete_schedule _ 1 (by decide) hN, fun schedule s hrun hj => ?_,
    byteCount_replicate_zero _⟩
  have hinv := sharedInv_run schedule (sharedInv_init _ 1 (by decide) hN) hrun
  rw [hinv.2.2.2 0, processedCount_joined (by decide) (by decide) hN hinv hj 0,
    byteCount_replicate_zero]
  decide

theorem shared_interleavings_witness :
    ((1 ≤ 2 ∧ 2 < 4294967296) ∧
      ∀ v, v < 256 → byteCount [0x41, 0x41, 0x42, 0x00] v ≤ 2147483647) ∧
    ((∃ schedule s, runSchedule [0x41, 0x41, 0x42, 0x00] 2
        (initShared [0x41, 0x41, 0x42, (0x00 : Int)].length 2) schedule = some s
      ∧ allJoined [0x41, 0x41, 0x42, 0x00] 2 s) ∧
    ∀ schedule s, runSchedule [0x41, 0x41, 0x42, 0x00] 2
        (initShared [0x41, 0x41, 0x42, (0x00 : Int)].length 2) schedule = some s →
      allJoined [0x41, 0x41, 0x42, 0x00] 2 s →
      s.global_histogram = globalStrategy [0x41, 0x41, 0x42, 0x00] 2 ∧
      ∀ v, v < 256 →
        s.global_histogram.getD v 0 = (byteCount [0x41, 0x41, 0x42, 0x00] v : Nat)) :=
  ⟨⟨by decide, fun v _ => Nat.le_trans (byteCount_le_length _ v) (by decide)⟩,
    shared_interleavings [0x41, 0x41, 0x42, 0x00] 2 (by decide) (by decide)
      (fun v _ => Nat.le_trans (byteCount_le_length _ v) (by decide))⟩

/-! ## Counter width -/

theorem shared_state_bounds {data : List Int} {W : Nat} {s : SharedState} (hW : 1 ≤ W)
    (hW32 : W < 4294967296) (hN : data.length ≤ 2147483647)
    (hinv : SharedInv data W s) (v : Nat) :
    s.global_histogram.getD v 0 = (processedCount data W s v : Nat)
    ∧ processedCount data W s v ≤ data.length := by
  have hle := processedCount_le hW hW32 (by omega) hinv v
  have hb := byteCount_le_length data v
  refine ⟨?_, Nat.le_trans hle hb⟩
  rw [hinv.2.2.2 v]
  exact wrapInt32_count (by omega)

theorem localScan_getD (data : List Int) (start k v : Nat) (hk : k - start ≤ 2147483647) :
    (processChunkLocal data start k zeroHistogram).getD v 0 = (countRange data v start k : Nat) := by
  rw [processChunkLocal_getD data _ _ v isHistogram_zero, zeroHistogram_getD, zero_add]
  have := countRange_le data v start k
  exact wrapInt32_count (by omega)

/-- C10. The counters are 32-bit `int`. For every byte buffer of length
`N <= 2^31 - 1` and every worker count `W >= 1`: in every state reached by any
interleaving of the shared run each counter lies in `[0, 2^31 - 1]` and the
next increment of any running worker stays within `2^31 - 1`; during each
private scan every counter lies in `[0, 2^31 - 1]` and the next increment stays
within `2^31 - 1`; every addition of the merge loop has non-negative operands
and an exact sum within `2^31 - 1`; every final counter of both runs is
non-negative. -/
theorem counters_never_overflow (data : List Int) (W : Nat) (hW : 1 ≤ W) (hW32 : W < 4294967296)
    (hN : data.length ≤ 2147483647) :
    (∀ schedule s, runSchedule data W (initShared data.length W) schedule = some s →
      (∀ v, 0 ≤ s.global_histogram.getD v 0 ∧ s.global_histogram.getD v 0 ≤ INT_MAX) ∧
      ∀ w, w < W → s.next.getD w 0 < chunkEnd data.length W w →
        s.global_histogram.getD (toUChar (data.getD (s.next.getD w 0) 0)) 0 + 1 ≤ INT_MAX) ∧
    (∀ w k, w < W → chunkStart data.length W w ≤ k → k < chunkEnd data.length W w →
      (∀ v, 0 ≤ (processChunkLocal data (chunkStart data.length W w) k zeroHistogram).getD v 0 ∧
        (processChunkLocal data (chunkStart data.length W w) k zeroHistogram).getD v 0
          ≤ INT_MAX) ∧
      (processChunkLocal data (chunkStart data.length W w) k zeroHistogram).getD
        (toUChar (data.getD k 0)) 0 + 1 ≤ INT_MAX) ∧
    (∀ i v, i < W → v < 256 →
      ∃ l, (localHistograms data W).getD i none = some l ∧
        0 ≤ (mergeLoop (localHistograms data W) i zeroHistogram).getD v 0 ∧
        0 ≤ l.getD v 0 ∧
        (mergeLoop (localHistograms data W) i zeroHistogram).getD v 0 + l.getD v 0 ≤ INT_MAX) ∧
    (∀ v, v < 256 →
      0 ≤ (globalStrategy data W).getD v 0 ∧ 0 ≤ (localStrategy data W).getD v 0) := by
  have hN64 : data.length < 18446744073709551616 := by omega
  unfold INT_MAX
  refine ⟨fun schedule s hrun => ?_, fun w k hw hlo hhi => ?_, fun i v hi hv => ?_,
    fun v hv => ?_⟩
  · have hinv := sharedInv_run schedule (sharedInv_init data W hW32 hN64) hrun
    refine ⟨fun v => ?_, fun w hw hlt => ?_⟩
    · have h := shared_state_bounds hW hW32 hN hinv v
      rw [h.1]
      omega
    · have hstep : stepWorker data W s w
          = some ⟨incrCounter s.global_histogram (toUChar (data.getD (s.next.getD w 0) 0)),
              s.next.set w (s.next.getD w 0 + 1)⟩ := by
        unfold stepWorker
        rw [if_pos ⟨hw, hlt⟩]
      have hinv' := sharedInv_step hinv hstep
      have h := shared_state_bounds hW hW32 hN hinv (toUChar (data.getD (s.next.getD w 0) 0))
      have h' := shared_state_bounds hW hW32 hN hinv' (toUChar (data.getD (s.next.getD w 0) 0))
      have hp := processedCount_step data W s w (toUChar (data.getD (s.next.getD w 0) 0))
        hinv.2.1 hw (hinv.2.2.1 w hw).1
      rw [if_pos (by simp)] at hp
      rw [h.1]
      have := h'.2
      omega
  · have hend := (chunk_bounds hW32 hN64 hw).2
    have hcr : ∀ v, countRange data v (chunkStart data.length W w) k
        ≤ k - chunkStart data.length W w := fun v => countRange_le data v _ k
    refine ⟨fun v => ?_, ?_⟩
    · rw [localScan_getD data _ k v (by omega)]
      have := hcr v
      omega
    · rw [localScan_getD data _ k _ (by omega)]
      have := hcr (toUChar (data.getD k 0))
      omega
  · have hb := chunk_bounds hW32 hN64 hi
    refine ⟨_, localHistograms_getD data W i hi, ?_⟩
    have hm := (mergePrefix_spec data W hW32 hN64 isHistogram_zero i hi).2 v hv
    rw [zeroHistogram_getD, zero_add] at hm
    have h1 := countRange_le data v 0 (chunkStart data.length W i)
    have h2 := countRange_le data v (chunkStart data.length W i) (chunkEnd data.length W i)
    rw [hm, wrapInt32_count (by omega), localScan_getD data _ _ v (by omega)]
    omega
  · rw [globalStrategy_getD data W hW hW32 hN64 v,
      (localStrategy_spec data W hW hW32 hN64).2 v hv]
    have := byteCount_le_length data v
    rw [wrapInt32_count (by omega)]
    omega

theorem counters_never_overflow_witness :
    (1 ≤ 2 ∧ 2 < 4294967296 ∧ sampleBuffer.length ≤ 2147483647) ∧
    ((∀ schedule s,
        runSchedule sampleBuffer 2 (initShared sampleBuffer.length 2) schedule = some s →
      (∀ v, 0 ≤ s.global_histogram.getD v 0 ∧ s.global_histogram.getD v 0 ≤ INT_MAX) ∧
      ∀ w, w < 2 → s.next.getD w 0 < chunkEnd sampleBuffer.length 2 w →
        s.global_histogram.getD (toUChar (sampleBuffer.getD (s.next.getD w 0) 0)) 0 + 1
          ≤ INT_MAX) ∧
    (∀ w k, w < 2 → chunkStart sampleBuffer.length 2 w ≤ k →
        k < chunkEnd sampleBuffer.length 2 w →
      (∀ v,
        0 ≤ (processChunkLocal sampleBuffer (chunkStart sampleBuffer.length 2 w) k
              zeroHistogram).getD v 0 ∧
        (processChunkLocal sampleBuffer (chunkStart sampleBuffer.length 2 w) k
              zeroHistogram).getD v 0 ≤ INT_MAX) ∧
      (processChunkLocal sampleBuffer (chunkStart sampleBuffer.length 2 w) k
          zeroHistogram).getD (toUChar (sampleBuffer.getD k 0)) 0 + 1 ≤ INT_MAX) ∧
    (∀ i v, i < 2 → v < 256 →
      ∃ l, (localHistograms sampleBuffer 2).getD i none = some l ∧
        0 ≤ (mergeLoop (localHistograms sampleBuffer 2) i zeroHistogram).getD v 0 ∧
        0 ≤ l.getD v 0 ∧
        (mergeLoop (localHistograms sampleBuffer 2) i zeroHistogram).getD v 0 + l.getD v 0
          ≤ INT_MAX) ∧
    (∀ v, v < 256 →
      0 ≤ (globalStrategy sampleBuffer 2).getD v 0 ∧
      0 ≤ (localStrategy sampleBuffer 2).getD v 0)) :=
  ⟨by decide,
    counters_never_overflow sampleBuffer 2 (by decide) (by decide) (by decide)⟩

/-! ## Zero workers -/

/-- C6 (the code departs from the claim). With a zero worker count `main`
reaches the division `fileSize / num_threads` of line 75 and ends there; it
does not end with a diagnostic and exit code 1. -/
theorem main_zero_threads (data : List Int) :
    main 2 (some data) 0 = Outcome.divisionByZero
    ∧ ∀ diagnostic, main 2 (some data) 0 ≠ Outcome.exitFailure diagnostic := by
  have h : main 2 (some data) 0 = Outcome.divisionByZero := rfl
  refine ⟨h, fun diagnostic hd => ?_⟩
  rw [h] at hd
  exact Outcome.noConfusion hd

/-! ## The output file name -/

theorem digitChar_ne_minus (d : Nat) (hd : d < 10) : Nat.digitChar d ≠ '-' := by
  interval_cases d <;> decide

theorem toDigitsCore_no_minus :
    ∀ (fuel n : Nat) (ds : List Char), (∀ c ∈ ds, c ≠ '-') →
      ∀ c ∈ Nat.toDigitsCore 10 fuel n ds, c ≠ '-' := by
  intro fuel
  induction fuel with
  | zero => intro n ds hds c hc; exact hds c hc
  | succ fuel ih =>
    intro n ds hds c hc
    have hcons : ∀ c ∈ Nat.digitChar (n % 10) :: ds, c ≠ '-' := by
      intro c hc
      rcases List.mem_cons.1 hc with h | h
      · rw [h]; exact digitChar_ne_minus _ (Nat.mod_lt n (by decide))
      · exact hds c h
    simp only [Nat.toDigitsCore] at hc
    split at hc
    · exact hcons c hc
    · exact ih _ _ hcons c hc

theorem toString_nat_no_minus (k : Nat) : '-' ∉ (toString k).data := by
  intro h
  have hd : (toString k).data = Nat.toDigits 10 k := rfl
  rw [hd] at h
  exact toDigitsCore_no_minus _ _ [] (fun c hc => absurd hc (List.not_mem_nil c)) _ h rfl

theorem candidateName_ne_negative (k : Nat) :
    candidateName "a" k ≠ "a_output_-2147483648.txt" := by
  unfold candidateName
  by_cases hk : k = 0
  · rw [if_pos hk]; decide
  · rw [if_neg hk]
    intro h
    have hr : ("a_output_-2147483648.txt" : String)
        = "a" ++ "_output_" ++ "-2147483648" ++ ".txt" := by decide
    rw [hr] at h
    have hdata := congrArg String.data h
    simp only [String.data_append] at hdata
    have h1 := List.append_cancel_right hdata
    have h2 := List.append_cancel_left h1
    have hm : '-' ∈ (toString k).data := by rw [h2]; decide
    exact toString_nat_no_minus k hm

theorem toString_cast (k : Nat) : toString ((k : Nat) : Int) = toString k := rfl

theorem outputLoop_skip (E : String → Bool) (B : String) (n : Nat) :
    ∀ j fuel, j + n ≤ 2147483647 →
      (∀ i, j ≤ i → i < j + n → E (candidateName B i) = true) →
      outputLoop E B (fuel + n) (candidateName B j) (wrapInt32 ((j : Nat) + 1))
        = outputLoop E B fuel (candidateName B (j + n)) (wrapInt32 ((j + n : Nat) + 1)) := by
  induction n with
  | zero => intro j fuel _ _; rfl
  | succ n ih =>
    intro j fuel hle hex
    have hfuel : fuel + (n + 1) = (fuel + n) + 1 := by omega
    have hj : E (candidateName B j) = true := hex j (Nat.le_refl _) (by omega)
    rw [hfuel]
    show (if E (candidateName B j) = true then
        outputLoop E B (fuel + n)
          (B ++ "_output_" ++ toString (wrapInt32 ((j : Nat) + 1)) ++ ".txt")
          (wrapInt32 (wrapInt32 ((j : Nat) + 1) + 1))
      else some (candidateName B j)) = _
    rw [if_pos hj]
    have hw : wrapInt32 ((j : Nat) + 1) = ((j + 1 : Nat) : Int) := by
      rw [wrapInt32_of_range (by omega) (by omega)]
      push_cast
      rfl
    have hname : B ++ "_output_" ++ toString (wrapInt32 ((j : Nat) + 1)) ++ ".txt"
        = candidateName B (j + 1) := by
      rw [hw, toString_cast]
      unfold candidateName
      rw [if_neg (Nat.succ_ne_zero j)]
    rw [hname, wrapInt32_add_left]
    have hc : ((j : Nat) : Int) + 1 + 1 = ((j + 1 : Nat) : Int) + 1 := by push_cast; ring
    rw [hc, ih (j + 1) fuel (by omega) (fun i h1 h2 => hex i (by omega) (by omega))]
    have e : j + 1 + n = j + (n + 1) := by omega
    rw [e]

theorem outputLoop_first_free (E : String → Bool) (B : String) (k : Nat)
    (hk : k ≤ 2147483647) (hbefore : ∀ j, j < k → E (candidateName B j) = true)
    (hfree : E (candidateName B k) = false) (fuel : Nat) (hfuel : k < fuel) :
    outputLoop E B fuel (B ++ "_output.txt") 1 = some (candidateName B k) := by
  have h0 : B ++ "_output.txt" = candidateName B 0 := rfl
  have h1 : (1 : Int) = wrapInt32 (((0 : Nat) : Int) + 1) := by decide
  have hf : fuel = (fuel - k - 1 + 1) + k := by omega
  rw [h0, h1, hf,
    outputLoop_skip E B k 0 (fuel - k - 1 + 1) (by omega) (fun i _ h2 => hbefore i (by omega)),
    Nat.zero_add]
  show (if E (candidateName B k) = true then _ else some (candidateName B k)) = _
  rw [hfree]
  rfl

theorem outputLoop_step_exists (E : String → Bool) (B : String) (fuel : Nat)
    (fileName : String) (counter : Int) (h : E fileName = true) :
    outputLoop E B (fuel + 1) fileName counter
      = outputLoop E B fuel (B ++ "_output_" ++ toString counter ++ ".txt")
          (wrapInt32 (counter + 1)) := by
  show (if E fileName = true then _ else some fileName) = _
  rw [if_pos h]

theorem outputLoop_step_free (E : String → Bool) (B : String) (fuel : Nat)
    (fileName : String) (counter : Int) (h : E fileName = false) :
    outputLoop E B (fuel + 1) fileName counter = some fileName := by
  show (if E fileName = true then _ else some fileName) = _
  rw [h]
  rfl

theorem firstNamesExist_candidate (B : String) (n k : Nat) (hk : k < n) :
    firstNamesExist B n (candidateName B k) = true := by
  unfold firstNamesExist
  rw [List.any_eq_true]
  exact ⟨k, List.mem_range.2 hk, by simp⟩

theorem findLastOfAux_absent (c : Char) :
    ∀ (l : List Char) (i : Nat) (last : Option Nat), c ∉ l → findLastOfAux c l i last = last := by
  intro l
  induction l with
  | nil => intro i last _; rfl
  | cons x xs ih =>
    intro i last h
    have hx : ¬ x = c := fun e => h (by rw [e]; exact List.mem_cons_self _ _)
    have hxs : c ∉ xs := fun hm => h (List.mem_cons_of_mem _ hm)
    show findLastOfAux c xs (i + 1) (if x = c then some i else last) = last
    rw [if_neg hx, ih _ _ hxs]

theorem findLastOfAux_last (c : Char) (ext : List Char) (hext : c ∉ ext) :
    ∀ (pre : List Char) (i : Nat) (last : Option Nat),
      findLastOfAux c (pre ++ c :: ext) i last = some (i + pre.length) := by
  intro pre
  induction pre with
  | nil =>
    intro i last
    show findLastOfAux c ext (i + 1) (if c = c then some i else last) = some (i + 0)
    rw [if_pos rfl, findLastOfAux_absent c ext _ _ hext]
    rfl
  | cons x xs ih =>
    intro i last
    show findLastOfAux c (xs ++ c :: ext) (i + 1) (if x = c then some i else last) = _
    rw [ih, List.length_cons]
    congr 1
    omega

theorem baseNameOf_dot (inputFileName : String) (pre ext : List Char)
    (hdata : inputFileName.data = pre ++ '.' :: ext) (hext : '.' ∉ ext) :
    baseNameOf inputFileName = if pre = [] then inputFileName else String.mk pre := by
  have hfind : find_last_of inputFileName '.' = some pre.length := by
    unfold find_last_of
    rw [hdata, findLastOfAux_last '.' ext hext pre 0 none, Nat.zero_add]
  have hsub : substr inputFileName (some pre.length) = String.mk pre := by
    show String.mk (inputFileName.data.take pre.length) = String.mk pre
    rw [hdata, List.take_left]
  unfold baseNameOf
  rw [hfind, hsub]
  cases pre with
  | nil => rfl
  | cons x xs => rfl

theorem baseNameOf_no_dot (inputFileName : String) (h : '.' ∉ inputFileName.data) :
    baseNameOf inputFileName = inputFileName := by
  have hfind : find_last_of inputFileName '.' = none := by
    unfold find_last_of
    exact findLastOfAux_absent '.' _ 0 none h
  unfold baseNameOf
  rw [hfind]
  show (if inputFileName.data.isEmpty = true then inputFileName else inputFileName) = _
  split <;> rfl

theorem createOutputFileName_free (E : String → Bool) (inputFileName : String)
    (h : E (candidateName (baseNameOf inputFileName) 0) = false) (fuel : Nat)
    (hfuel : 1 ≤ fuel) :
    createOutputFileName E inputFileName fuel
      = some (baseNameOf inputFileName ++ "_output.txt") := by
  obtain ⟨f, rfl⟩ : ∃ f, fuel = f + 1 := ⟨fuel - 1, by omega⟩
  exact outputLoop_step_free E _ f _ 1 h

/-- C8, as amended. For every input file path whose last `.`, if it has one,
lies in the final path component (no `/` follows it), when no candidate name
already exists, `createOutputFileName` returns the path cut just before its
last `.` with `_output.txt` appended, that is, with the extension replaced; a
path with nothing before its last `.` (such as `.bashrc`) and a path without
any `.` are returned unchanged with `_output.txt` appended. -/
theorem createOutputFileName_extension (fileExists : String → Bool) (inputFileName : String)
    (hnone : ∀ k, fileExists (candidateName (baseNameOf inputFileName) k) = false)
    (fuel : Nat) (hfuel : 1 ≤ fuel) :
    (∀ pre ext, inputFileName.data = pre ++ '.' :: ext → '.' ∉ ext → '/' ∉ ext →
      createOutputFileName fileExists inputFileName fuel
        = some ((if pre = [] then inputFileName else String.mk pre) ++ "_output.txt")) ∧
    ('.' ∉ inputFileName.data →
      createOutputFileName fileExists inputFileName fuel
        = some (inputFileName ++ "_output.txt")) := by
  have hres := createOutputFileName_free fileExists inputFileName (hnone 0) fuel hfuel
  refine ⟨fun pre ext hdata hdot _ => ?_, fun hno => ?_⟩
  · rw [hres, baseNameOf_dot inputFileName pre ext hdata hdot]
  · rw [hres, baseNameOf_no_dot inputFileName hno]

theorem createOutputFileName_extension_witness :
    ((∀ k, (fun _ => false) (candidateName (baseNameOf "dir/file.bin") k) = false) ∧ 1 ≤ 1) ∧
    ((∀ pre ext, ("dir/file.bin" : String).data = pre ++ '.' :: ext → '.' ∉ ext → '/' ∉ ext →
      createOutputFileName (fun _ => false) "dir/file.bin" 1
        = some ((if pre = [] then "dir/file.bin" else String.mk pre) ++ "_output.txt")) ∧
    ('.' ∉ ("dir/file.bin" : String).data →
      createOutputFileName (fun _ => false) "dir/file.bin" 1
        = some ("dir/file.bin" ++ "_output.txt"))) :=
  ⟨⟨fun _ => rfl, by decide⟩,
    createOutputFileName_extension (fun _ => false) "dir/file.bin" (fun _ => rfl) 1 (by decide)⟩

/-- C8 as stated fails. With no existing candidate: `.bashrc`, whose final
component is all extension by the claim's definition, is kept whole by the
guard of line 51 and gives `.bashrc_output.txt`, not `_output.txt`; and
`../data`, whose final component has no extension, gives `._output.txt` and
`run.v2/data` gives `run_output.txt`, not the path with `_output.txt` appended:
the last `.` of the whole path is used. -/
theorem createOutputFileName_dot_in_directory :
    createOutputFileName (fun _ => false) ".bashrc" 1 = some ".bashrc_output.txt"
    ∧ createOutputFileName (fun _ => false) "../data" 1 = some "._output.txt"
    ∧ createOutputFileName (fun _ => false) "run.v2/data" 1 = some "run_output.txt" := by
  decide

/-- C9, as amended. For every input path with base name `B` and every
file-existence predicate under which at least one of the first `2^31` names
`B_output.txt, B_output_1.txt, ..., B_output_2147483647.txt` is not an existing
file, `createOutputFileName` terminates (every fuel above the index of the
result suffices) and returns the first name of the sequence that is not an
existing file; and whenever `B_output.txt` exists and `B_output_1.txt` does
not, the result is `B_output_1.txt`. -/
theorem createOutputFileName_first_free (fileExists : String → Bool) (inputFileName : String)
    (hfree : ∃ k, k ≤ 2147483647 ∧
      fileExists (candidateName (baseNameOf inputFileName) k) = false) :
    (∃ k, fileExists (candidateName (baseNameOf inputFileName) k) = false ∧
      (∀ j, j < k → fileExists (candidateName (baseNameOf inputFileName) j) = true) ∧
      ∀ fuel, k < fuel →
        createOutputFileName fileExists inputFileName fuel
          = some (candidateName (baseNameOf inputFileName) k)) ∧
    (fileExists (baseNameOf inputFileName ++ "_output.txt") = true →
      fileExists (baseNameOf inputFileName ++ "_output_1.txt") = false →
      ∀ fuel, 1 < fuel →
        createOutputFileName fileExists inputFileName fuel
          = some (baseNameOf inputFileName ++ "_output_1.txt")) := by
  have hone : candidateName (baseNameOf inputFileName) 1
      = baseNameOf inputFileName ++ "_output_1.txt" := by
    show baseNameOf inputFileName ++ "_output_" ++ "1" ++ ".txt" = _
    rw [String.append_assoc, String.append_assoc]
    rfl
  constructor
  · have hex : ∃ k, fileExists (candidateName (baseNameOf inputFileName) k) = false := by
      obtain ⟨k, _, hk⟩ := hfree
      exact ⟨k, hk⟩
    refine ⟨Nat.find hex, Nat.find_spec hex, fun j hj => ?_, fun fuel hfuel => ?_⟩
    · have := Nat.find_min hex hj
      simpa using this
    · obtain ⟨k, hk, hkf⟩ := hfree
      have hle : Nat.find hex ≤ 2147483647 := Nat.le_trans (Nat.find_min' hex hkf) hk
      refine outputLoop_first_free fileExists _ _ hle (fun j hj => ?_) (Nat.find_spec hex)
        fuel hfuel
      have := Nat.find_min hex hj
      simpa using this
  · intro h0 h1 fuel hfuel
    rw [← hone]
    refine outputLoop_first_free fileExists _ 1 (by decide) (fun j hj => ?_) ?_ fuel hfuel
    · have hj0 : j = 0 := by omega
      rw [hj0]
      exact h0
    · rw [hone]
      exact h1

theorem createOutputFileName_first_free_witness :
    (∃ k, k ≤ 2147483647 ∧
      (fun s => s == "a_output.txt") (candidateName (baseNameOf "a.bin") k) = false) ∧
    ((∃ k, (fun s => s == "a_output.txt") (candidateName (baseNameOf "a.bin") k) = false ∧
      (∀ j, j < k →
        (fun s => s == "a_output.txt") (candidateName (baseNameOf "a.bin") j) = true) ∧
      ∀ fuel, k < fuel →
        createOutputFileName (fun s => s == "a_output.txt") "a.bin" fuel
          = some (candidateName (baseNameOf "a.bin") k)) ∧
    ((fun s => s == "a_output.txt") (baseNameOf "a.bin" ++ "_output.txt") = true →
      (fun s => s == "a_output.txt") (baseNameOf "a.bin" ++ "_output_1.txt") = false →
      ∀ fuel, 1 < fuel →
        createOutputFileName (fun s => s == "a_output.txt") "a.bin" fuel
          = some (baseNameOf "a.bin" ++ "_output_1.txt"))) :=
  ⟨⟨1, by decide, by decide⟩,
    createOutputFileName_first_free (fun s => s == "a_output.txt") "a.bin"
      ⟨1, by decide, by decide⟩⟩

/-- C9 as stated fails: when exactly the first `2^31` names of the sequence
for `a.bin` exist, the `int` counter passes `2^31 - 1` and the function returns
`a_output_-2147483648.txt`, which is no name of the sequence
`a_output.txt, a_output_1.txt, a_output_2.txt, ...` at all. -/
theorem createOutputFileName_counter_overflow :
    (∀ k, k < 2147483648 →
      firstNamesExist "a" 2147483648 (candidateName (baseNameOf "a.bin") k) = true) ∧
    (∀ fuel, 2147483648 < fuel →
      createOutputFileName (firstNamesExist "a" 2147483648) "a.bin" fuel
        = some "a_output_-2147483648.txt") ∧
    (∀ k, candidateName (baseNameOf "a.bin") k ≠ "a_output_-2147483648.txt") := by
  have hb : baseNameOf "a.bin" = "a" := by decide
  rw [hb]
  refine ⟨fun k hk => firstNamesExist_candidate "a" _ k hk, fun fuel hfuel => ?_,
    candidateName_ne_negative⟩
  unfold createOutputFileName
  rw [hb]
  have h0 : ("a" : String) ++ "_output.txt" = candidateName "a" 0 := rfl
  have h1 : (1 : Int) = wrapInt32 (((0 : Nat) : Int) + 1) := by decide
  have hf : fuel = (fuel - 2147483649 + 1 + 1) + 2147483647 := by omega
  rw [h0, h1, hf,
    outputLoop_skip (firstNamesExist "a" 2147483648) "a" 2147483647 0
      (fuel - 2147483649 + 1 + 1) (by decide)
      (fun i _ h2 => firstNamesExist_candidate "a" _ i (by omega)),
    outputLoop_step_exists _ _ _ _ _ (firstNamesExist_candidate "a" _ _ (by decide))]
  have hw : wrapInt32 (((0 + 2147483647 : Nat) : Int) + 1) = -2147483648 := by decide
  have hname : ("a" : String) ++ "_output_" ++ toString (-2147483648 : Int) ++ ".txt"
      = "a_output_-2147483648.txt" := by decide
  rw [hw, hname]
  apply outputLoop_step_free
  unfold firstNamesExist
  rw [List.any_eq_false]
  intro k _ hk
  have : ("a_output_-2147483648.txt" : String) = candidateName "a" k := by simpa using hk
  exact candidateName_ne_negative k this.symm

end Hist
